import Mathlib

/-!
Verification of the CMA-ES engine of `mtuq/stochastic_sampling`
(`cmaes.py`, `cmaes_init.py`, `cmaes_parallel.py`).

Shallow embedding conventions:
* numpy column operations on the `n × lambda` mutant array are modelled on
  `List`s of rows/columns of rationals, or on `Matrix (Fin n) (Fin n) ℝ`
  where real analysis (logarithms, square roots) is involved;
* the stream of `np.random.randn()` draws consumed by the redraw loop is an
  explicit list argument; the unbounded `while` repair loop takes fuel and
  returns `Option`, so a returned `some` models normal termination;
* Python `%` on floats is `pmod x m = x - m * ⌊x / m⌋` (sign of the divisor);
* `raise ValueError`/`raise StopIteration` become `Except.error`.

The helper module `cmaes_utils` (`linear_transform`, `in_bounds`,
`array_in_bounds`, `Repair`, `inverse_linear_transform`) is imported by the
sources but is not part of the source tree; those helpers are modelled from
the spec and are marked as such in their doc comments.
-/

namespace Mtuq

/-! ### Helpers modelled from the spec (module `cmaes_utils` is absent) -/

/-- Modelled from the spec: `cmaes_utils.linear_transform` is missing from the
source tree.  Spec §4.1: "linear scaling maps `x∈[0,10]` affinely to
`[lower,upper]`". -/
def linear_transform (x lower upper : ℚ) : ℚ :=
  lower + (upper - lower) * x / 10

/-- Modelled from the spec: `cmaes_utils.inverse_linear_transform` is missing
from the source tree; it is the inverse of the affine map `linear_transform`,
sending `[lower,upper]` back to the internal sampling domain `[0,10]`. -/
def inverse_linear_transform (y lower upper : ℚ) : ℚ :=
  10 * (y - lower) / (upper - lower)

/-- Modelled from the spec: `cmaes_utils.in_bounds` is missing from the source
tree.  Spec §8: "every repaired candidate value lies within `[0,10]`", read as
membership in the closed interval `[lower, upper]`. -/
def in_bounds (x lower upper : ℚ) : Bool :=
  decide (lower ≤ x) && decide (x ≤ upper)

/-- Modelled from the spec: `cmaes_utils.array_in_bounds` is missing from the
source tree; it holds when every entry of the array is `in_bounds`. -/
def array_in_bounds (xs : List ℚ) (lower upper : ℚ) : Bool :=
  xs.all (fun x => in_bounds x lower upper)

/-! ### C1: `np.array_split` scatter and block-order gather

`_scatter_mutants` (cmaes.py:436-439) does
`np.array_split(self.mutants, self.size, axis=1)`; `gather_mutants`
(cmaes.py:657-703) concatenates the per-process blocks back in block order
with `np.concatenate(..., axis=1)`.  Columns of the `n × lambda` array are
modelled as the elements of a list, so `axis=1` split/concat become a list
split and `List.flatten`. -/

/-- Block sizes used by `np.array_split(a, W)` on an array of length `l`:
`l % W` blocks of size `l / W + 1` followed by `W - l % W` blocks of size
`l / W`. -/
def split_sizes (l W : ℕ) : List ℕ :=
  List.replicate (l % W) (l / W + 1) ++ List.replicate (W - l % W) (l / W)

/-- Cut `xs` into consecutive chunks of the given sizes. -/
def chunks {α : Type*} : List ℕ → List α → List (List α)
  | [], _ => []
  | s :: ss, xs => xs.take s :: chunks ss (xs.drop s)

/-- `np.array_split(xs, W)` along the column axis, columns as list elements. -/
def array_split {α : Type*} (W : ℕ) (xs : List α) : List (List α) :=
  chunks (split_sizes xs.length W) xs

end Mtuq

namespace Mtuq

/-! ### C4: `smallestAngle` (cmaes.py:815-837) and `mean_diff`
(cmaes.py:839-861), scalar (entrywise) form -/

/-- Python float `%`: `x % m` has the sign of the divisor `m`. -/
def pmod (x m : ℚ) : ℚ :=
  x - m * ⌊x / m⌋

/-- `smallestAngle` (cmaes.py:815-837), entrywise: `diffs = (target - current)
% 360`, then entries above 180 are replaced by `-(360 - diffs)`. -/
def smallestAngle (targetAngles currentAngles : ℚ) : ℚ :=
  let diffs := pmod (targetAngles - currentAngles) 360
  if 180 < diffs then -(360 - diffs) else diffs

/-- `mean_diff` (cmaes.py:839-861), entrywise: for a parameter whose repair
method is `'wrapping'` the difference is the circular one computed through
`smallestAngle` on the `[0,360]` image; otherwise it is `new - old`. -/
def mean_diff_entry (wrapping : Bool) (new old : ℚ) : ℚ :=
  if wrapping then
    inverse_linear_transform
      (smallestAngle (linear_transform new 0 360) (linear_transform old 0 360)) 0 360
  else new - old

/-! ### C8: misfit-weight handling in `Solve` (cmaes.py:1134-1144) -/

/-- The weight-normalization segment of `Solve` (cmaes.py:1134-1144): default
to `[1.0] * len(data_list)` when no weights are given, reject a
length mismatch, reject a zero total, else divide every weight by the total. -/
def solve_misfit_weights (misfit_weights : Option (List ℚ)) (data_len : ℕ) :
    Except String (List ℚ) :=
  match misfit_weights with
  | some ws =>
    if ws.length ≠ data_len then
      Except.error "Length of misfit_weights must match the length of data_list."
    else if ws.sum = 0 then
      Except.error "Sum of weights cannot be zero."
    else Except.ok (ws.map (fun w => w / ws.sum))
  | none =>
    let weights : List ℚ := List.replicate data_len 1
    if weights.sum = 0 then
      Except.error "Sum of weights cannot be zero."
    else Except.ok (weights.map (fun w => w / weights.sum))

/-- `true` on `Except.error`. -/
def isError {ε α : Type*} : Except ε α → Bool
  | Except.error _ => true
  | Except.ok _ => false

/-! ### C9: `_generate_sources` (cmaes.py:1238-1284)

Rows of `transformed_mutants` are the elements of a list of rows, each row a
list of `lambda` per-mutant values.  `np.insert(a, i, 0, axis=0)` inserts a
zero row (the scalar broadcast along `lambda` columns) at index `i`.  The
embedding returns the rows handed to the callback. -/

/-- `mode_to_indices` dictionary of `_generate_sources` (cmaes.py:1261-1266). -/
def mode_to_indices (mode : String) : Option (List ℕ) :=
  if mode = "mt" then some [0, 6]
  else if mode = "mt_dev" then some [0, 5, 2]
  else if mode = "mt_dc" then some [0, 4, 1, 2]
  else if mode = "force" then some [0, 3]
  else none

/-- `_generate_sources` (cmaes.py:1238-1284), up to the callback: select the
mode's row slice `[indices[0]:indices[1]]`; for `'mt_dev'`/`'mt_dc'` insert a
zero row at each position of `indices[2:]` in turn and slice `[0:6]`; an
unknown mode raises `ValueError`. -/
def generate_sources_rows (mode : String) (lam : ℕ) (rows : List (List ℚ)) :
    Except String (List (List ℚ)) :=
  match mode_to_indices mode with
  | none => Except.error ("Invalid mode: " ++ mode)
  | some indices =>
    let i0 := indices.getD 0 0
    let i1 := indices.getD 1 0
    if mode = "mt" ∨ mode = "force" then
      Except.ok ((rows.drop i0).take (i1 - i0))
    else
      let extended := (indices.drop 2).foldl
        (fun acc idx => acc.insertIdx idx (List.replicate lam 0))
        ((rows.drop i0).take (i1 - i0))
      Except.ok (extended.take 6)

/-! ### C3: `_repair_and_redraw_mutants` (cmaes.py:389-434)

The draws produced by `np.random.randn()` inside `_redraw_param_until_valid`
are modelled as an explicit stream (list) of rationals consumed left to
right; exhausting the stream models a run in which the loop has not yet
terminated, so a `some` result is exactly a terminating run.  Likewise the
unbounded `while not array_in_bounds: Repair(...)` loop of
`_apply_repair_to_param` takes fuel, and the repair method itself (from the
absent `cmaes_utils.Repair`) is an opaque array transform. -/

/-- The inner `while not in_bounds: param_values[i] = np.random.randn()` loop
of `_redraw_param_until_valid` (cmaes.py:414-421) for one scalar: keep taking
draws until one is in bounds, returning the accepted value and the remaining
stream. -/
def redraw_scalar (lower upper : ℚ) : List ℚ → ℚ → Option (ℚ × List ℚ)
  | [], x => if in_bounds x lower upper then some (x, []) else none
  | v :: rest, x =>
    if in_bounds x lower upper then some (x, v :: rest)
    else redraw_scalar lower upper rest v

/-- `_redraw_param_until_valid` (cmaes.py:414-421): walk the parameter's
values across all mutants, redrawing each out-of-bounds scalar individually. -/
def redraw_param_until_valid (lower upper : ℚ) : List ℚ → List ℚ → Option (List ℚ)
  | _, [] => some []
  | stream, x :: xs =>
    match redraw_scalar lower upper stream x with
    | none => none
    | some (y, stream') =>
      match redraw_param_until_valid lower upper stream' xs with
      | none => none
      | some ys => some (y :: ys)

/-- `_apply_repair_to_param` (cmaes.py:423-434): apply the named repair
transform to the whole row until every value is in bounds. -/
def apply_repair_to_param (repairFn : List ℚ → List ℚ) (lower upper : ℚ) :
    ℕ → List ℚ → Option (List ℚ)
  | 0, xs => if array_in_bounds xs lower upper then some xs else none
  | f + 1, xs =>
    if array_in_bounds xs lower upper then some xs
    else apply_repair_to_param repairFn lower upper f (repairFn xs)

/-- Per-parameter data of `_repair_and_redraw_mutants`: the parameter's
`repair` attribute (an opaque transform for a named method, `none` for the
redraw policy), together with the modelled randomness and loop fuel. -/
structure ParamRepair where
  repair : Option (List ℚ → List ℚ)
  stream : List ℚ
  fuel : ℕ

instance : Inhabited ParamRepair :=
  ⟨⟨none, [], 0⟩⟩

/-- One iteration of the `for param_idx in range(self.n)` loop of
`_repair_and_redraw_mutants` (cmaes.py:389-412): skip rows already in
bounds, redraw scalars when `repair is None`, else apply the repair method. -/
def repair_and_redraw_row (p : ParamRepair) (row : List ℚ) : Option (List ℚ) :=
  if array_in_bounds row 0 10 then some row
  else
    match p.repair with
    | none => redraw_param_until_valid 0 10 p.stream row
    | some repairFn => apply_repair_to_param repairFn 0 10 p.fuel row

/-- `_repair_and_redraw_mutants` (cmaes.py:389-412): process every parameter
row of the `n × lambda` mutant array against the hardcoded bounds `[0, 10]`. -/
def repair_and_redraw_mutants : List ParamRepair → List (List ℚ) → Option (List (List ℚ))
  | [], _ => some []
  | _ :: _, [] => some []
  | p :: ps, row :: rows =>
    match repair_and_redraw_row p row, repair_and_redraw_mutants ps rows with
    | some r, some rs => some (r :: rs)
    | _, _ => none

/-! ### C2: recombination weights (cmaes.py:290-294), `fitness_sort`
(cmaes.py:705-726) and `update_mean` (cmaes.py:775-793)

The `n × lambda` mutant array is modelled as the list of its `lambda`
columns (each a list of `n` rationals); the misfit vector is a list of
`lambda` rationals; the CMA-ES mean is a list of `n` reals. -/

/-- Total preorder on candidate indices modelling `np.argsort(misfit)`:
compare misfit values, breaking ties by index (a stable refinement of the
unspecified numpy tie order). -/
def rankLE (m : List ℚ) (i j : ℕ) : Prop :=
  m.getD i 0 < m.getD j 0 ∨ (m.getD i 0 = m.getD j 0 ∧ i ≤ j)

instance rankLE_decidable (m : List ℚ) : DecidableRel (rankLE m) := fun i j => by
  unfold rankLE
  infer_instance

instance rankLE_total (m : List ℚ) : IsTotal ℕ (rankLE m) :=
  ⟨fun i j => by
    rcases lt_trichotomy (m.getD i 0) (m.getD j 0) with h | h | h
    · exact Or.inl (Or.inl h)
    · rcases Nat.le_total i j with hij | hij
      · exact Or.inl (Or.inr ⟨h, hij⟩)
      · exact Or.inr (Or.inr ⟨h.symm, hij⟩)
    · exact Or.inr (Or.inl h)⟩

instance rankLE_trans (m : List ℚ) : IsTrans ℕ (rankLE m) :=
  ⟨fun a b c hab hbc => by
    rcases hab with hab | ⟨hab, hab'⟩ <;> rcases hbc with hbc | ⟨hbc, hbc'⟩
    · exact Or.inl (hab.trans hbc)
    · exact Or.inl (by rw [← hbc]; exact hab)
    · exact Or.inl (by rw [hab]; exact hbc)
    · exact Or.inr ⟨hab.trans hbc, le_trans hab' hbc'⟩⟩

/-- `np.argsort(misfit.T)[0]` (cmaes.py:724): the permutation of candidate
indices that sorts the misfit vector ascending. -/
def argsort (m : List ℚ) : List ℕ :=
  List.insertionSort (rankLE m) (List.range m.length)

/-- `fitness_sort` (cmaes.py:705-726): reorder the mutant columns by
`argsort` of the misfit vector. -/
def fitness_sort (cols : List (List ℚ)) (m : List ℚ) : List (List ℚ) :=
  (argsort m).map (fun i => cols.getD i [])

/-- Recombination weights of `_initialize_parameters` (cmaes.py:290-294):
`mu = floor(lambda/2)` raw weights `log(mu + 1) - log(i)`, `i = 1..mu`,
then normalized by their sum. -/
noncomputable def weights (mu : ℕ) : List ℝ :=
  let raw := (List.range mu).map
    (fun (i : ℕ) => Real.log ((mu : ℝ) + 1) - Real.log ((i : ℝ) + 1))
  raw.map (fun w => w / raw.sum)

/-- The mean and the saved copy of the previous mean held by `update_mean`. -/
structure MeanState where
  xmean : List ℝ
  xold : List ℝ

/-- Row `i` of `np.dot(self.mutants[:, 0:len(self.weights)], self.weights)`
(cmaes.py:779) on the fitness-sorted columns. -/
noncomputable def update_mean_entry (sortedCols : List (List ℚ)) (w : List ℝ)
    (i : ℕ) : ℝ :=
  (List.zipWith (fun (c : List ℚ) (wj : ℝ) => ((c.getD i 0 : ℚ) : ℝ) * wj)
    (sortedCols.take w.length) w).sum

/-- `update_mean` (cmaes.py:775-793): save `xold = xmean.copy()`, set the new
mean to the weighted sum of the first `len(weights)` sorted columns, then
overwrite rows whose parameter has the `'wrapping'` repair with the circular
mean (modelled opaquely, the claim concerns the non-wrapping rows). -/
noncomputable def update_mean (wrap : ℕ → Bool) (circular_mean : ℕ → ℝ)
    (xmean : List ℝ) (sortedCols : List (List ℚ)) (w : List ℝ) : MeanState :=
  { xold := xmean
    xmean := (List.range xmean.length).map (fun i =>
      if wrap i then circular_mean i else update_mean_entry sortedCols w i) }

/-! ### C5/C6: `update_covariance` (cmaes.py:733-773)

Real-valued state of the adaptation step.  Vectors are `Fin n → ℝ`, the
covariance and its decomposition are `n × n` real matrices, and the mutant
array is `n × lambda`.  `np.linalg.eig` is an opaque oracle returning
(eigenvalues, eigenvectors).  The entrywise circular difference `mean_diff`
is re-stated over `ℝ` (`linear_transform`/`inverse_linear_transform` again
modelled from the spec, `cmaes_utils` being absent). -/

/-- Real-valued `linear_transform` (modelled from the spec, as above). -/
noncomputable def linear_transformR (x lower upper : ℝ) : ℝ :=
  lower + (upper - lower) * x / 10

/-- Real-valued `inverse_linear_transform` (modelled from the spec). -/
noncomputable def inverse_linear_transformR (y lower upper : ℝ) : ℝ :=
  10 * (y - lower) / (upper - lower)

/-- Python float `%` over `ℝ`. -/
noncomputable def pmodR (x m : ℝ) : ℝ :=
  x - m * ⌊x / m⌋

/-- `smallestAngle` (cmaes.py:815-837) over `ℝ`, entrywise. -/
noncomputable def smallestAngleR (targetAngles currentAngles : ℝ) : ℝ :=
  let diffs := pmodR (targetAngles - currentAngles) 360
  if 180 < diffs then -(360 - diffs) else diffs

/-- `mean_diff` (cmaes.py:839-861) over `ℝ`, entrywise. -/
noncomputable def mean_diffR (wrapping : Bool) (new old : ℝ) : ℝ :=
  if wrapping then
    inverse_linear_transformR
      (smallestAngleR (linear_transformR new 0 360) (linear_transformR old 0 360)) 0 360
  else new - old

/-- The attributes of the `CMA_ES` object read or written by
`update_covariance` (cmaes.py:733-773). -/
structure CovState (n lam : ℕ) where
  ps : Fin n → ℝ
  pc : Fin n → ℝ
  C : Matrix (Fin n) (Fin n) ℝ
  B : Matrix (Fin n) (Fin n) ℝ
  D : Fin n → ℝ
  invsqrtC : Matrix (Fin n) (Fin n) ℝ
  xmean : Fin n → ℝ
  xold : Fin n → ℝ
  mutants : Fin n → Fin lam → ℝ
  wrap : Fin n → Bool
  weights : Fin (lam / 2) → ℝ
  sigma : ℝ
  cs : ℝ
  cc : ℝ
  c1 : ℝ
  cmu : ℝ
  chin : ℝ
  mueff : ℝ
  damps : ℝ
  hsig : ℝ
  dhsig : ℝ
  counteval : ℕ
  eigeneval : ℕ
  iteration : ℕ

/-- `np.linalg.norm` of a vector. -/
noncomputable def vecNorm {n : ℕ} (v : Fin n → ℝ) : ℝ :=
  Real.sqrt (∑ i, v i ^ 2)

/-- The normalized step-size-path length of cmaes.py:737,
`norm(ps) / sqrt(1 - (1-cs)^(2*(counteval//lambda + 1))) / chin`. -/
noncomputable def hsig_condition {n lam : ℕ} (s : CovState n lam) : ℝ :=
  vecNorm s.ps / Real.sqrt (1 - (1 - s.cs) ^ (2 * (s.counteval / lam + 1))) / s.chin

/-- The fixed threshold `1.4 + 2/(n+1)` of cmaes.py:738. -/
noncomputable def hsig_threshold (n : ℕ) : ℝ :=
  1.4 + 2 / ((n : ℝ) + 1)

/-- The covariance-path update of cmaes.py:747. -/
noncomputable def pc_update {n lam : ℕ} (s : CovState n lam) (hsig : ℝ) : Fin n → ℝ :=
  fun i => (1 - s.cc) * s.pc i +
    hsig * Real.sqrt (s.cc * (2 - s.cc) * s.mueff) *
      mean_diffR (s.wrap i) (s.xmean i) (s.xold i) / s.sigma

/-- `artmp = (1/sigma) * mean_diff(mutants[:, 0:int(mu)], xold)`
(cmaes.py:749), an `n × mu` matrix. -/
noncomputable def artmp_of {n lam : ℕ} (s : CovState n lam) : Fin n → Fin (lam / 2) → ℝ :=
  fun i j => (1 / s.sigma) *
    mean_diffR (s.wrap i) (s.mutants i (Fin.castLE (Nat.div_le_self lam 2) j)) (s.xold i)

/-- `update_covariance` (cmaes.py:733-763) before the eigendecomposition
refresh: set `hsig` and `dhsig`, update `pc`, then update `C` sequentially —
multiply by the discount factor, add the rank-one term, add the rank-mu
term — and adapt the step size. -/
noncomputable def update_covariance_main {n lam : ℕ} (s : CovState n lam) : CovState n lam :=
  let hsig : ℝ := if hsig_condition s < hsig_threshold n then 1 else 0
  let dhsig := (1 - hsig) * s.cc * (2 - s.cc)
  let pcNew := pc_update s hsig
  let artmp := artmp_of s
  let C1 := (1 + s.c1 * dhsig - s.c1 - s.cmu * (∑ j, s.weights j)) • s.C
  let C2 := C1 + s.c1 • Matrix.of (fun i k => pcNew i * pcNew k)
  let C3 := C2 + s.cmu • Matrix.of (fun i k => ∑ j, artmp i j * s.weights j * artmp k j)
  { s with
    hsig := hsig
    dhsig := dhsig
    pc := pcNew
    C := C3
    sigma := s.sigma * Real.exp ((s.cs / s.damps) * (vecNorm s.ps / s.chin - 1)) }

/-- `np.triu(C)`: keep entries on or above the main diagonal. -/
def triu {n : ℕ} (C : Matrix (Fin n) (Fin n) ℝ) : Matrix (Fin n) (Fin n) ℝ :=
  Matrix.of fun i j => if i ≤ j then C i j else 0

/-- `np.triu(C, 1)`: keep entries strictly above the main diagonal. -/
def triu1 {n : ℕ} (C : Matrix (Fin n) (Fin n) ℝ) : Matrix (Fin n) (Fin n) ℝ :=
  Matrix.of fun i j => if i < j then C i j else 0

/-- The refresh trigger of cmaes.py:765,
`counteval - eigeneval > lambda/(c1+cmu)/n/10`. -/
noncomputable def refresh_condition {n lam : ℕ} (s : CovState n lam) : Prop :=
  ((s.counteval : ℝ) - (s.eigeneval : ℝ)) > (lam : ℝ) / (s.c1 + s.cmu) / (n : ℝ) / 10

noncomputable instance refresh_condition_decidable {n lam : ℕ} (s : CovState n lam) :
    Decidable (refresh_condition s) := by
  unfold refresh_condition
  infer_instance

/-- The eigendecomposition refresh of `update_covariance` (cmaes.py:765-771):
when the amortization threshold is exceeded, symmetrize `C` as
`np.triu(C) + np.triu(C,1).T`, record `eigeneval = counteval`, rebuild `D` as
the elementwise square root of the eigenvalues and `B` as the eigenvector
matrix returned by the `eig` oracle, and rebuild `invsqrtC`; otherwise leave
the state untouched. -/
noncomputable def eigen_refresh {n lam : ℕ}
    (eig : Matrix (Fin n) (Fin n) ℝ → (Fin n → ℝ) × Matrix (Fin n) (Fin n) ℝ)
    (s : CovState n lam) : CovState n lam :=
  if refresh_condition s then
    let Csym := triu s.C + (triu1 s.C).transpose
    let DNew := fun i => Real.sqrt ((eig Csym).1 i)
    let BNew := (eig Csym).2
    { s with
      eigeneval := s.counteval
      C := Csym
      D := DNew
      B := BNew
      invsqrtC := BNew * Matrix.diagonal (fun i => (DNew i)⁻¹) * BNew.transpose }
  else s

/-- `update_covariance` (cmaes.py:733-773): the main update, the conditional
eigendecomposition refresh, then `iteration = counteval // lambda`. -/
noncomputable def update_covariance {n lam : ℕ}
    (eig : Matrix (Fin n) (Fin n) ℝ → (Fin n → ℝ) × Matrix (Fin n) (Fin n) ℝ)
    (s : CovState n lam) : CovState n lam :=
  let s1 := eigen_refresh eig (update_covariance_main s)
  { s1 with iteration := s1.counteval / lam }

/-! ### C10: the covariance discount of cmaes.py:757 against the legacy
variant of cmaes_parallel.py:275 -/

/-- The scalar discount factor applied to `C` in `update_covariance`
(cmaes.py:745,757): `1 + c1*dhsig - c1 - cmu*sum(weights)` with
`dhsig = (1-hsig)*cc*(2-cc)`. -/
def discount_factor (c1 cmu cc hsig sumw : ℝ) : ℝ :=
  1 + c1 * ((1 - hsig) * cc * (2 - cc)) - c1 - cmu * sumw

/-- The `C`-discount contribution of cmaes.py:757, as a matrix. -/
def discount_current {n : ℕ} (c1 cmu cc hsig sumw : ℝ)
    (C : Matrix (Fin n) (Fin n) ℝ) : Matrix (Fin n) (Fin n) ℝ :=
  discount_factor c1 cmu cc hsig sumw • C

/-- The `C`-discount contribution of the legacy
`parallel_CMA_ES.update_covariance` (cmaes_parallel.py:275):
`(1-c1-cmu)*C + c1*((1-hsig)*cc*(2-cc))*C` (the `C`-proportional part of
`(1-c1-cmu)*C + c1*(pc@pc.T + (1-hsig)*cc*(2-cc)*C)`). -/
def discount_legacy {n : ℕ} (c1 cmu cc hsig : ℝ)
    (C : Matrix (Fin n) (Fin n) ℝ) : Matrix (Fin n) (Fin n) ℝ :=
  (1 - c1 - cmu) • C + (c1 * ((1 - hsig) * cc * (2 - cc))) • C

/-! ### C7: `_restart_ipop` (cmaes_init.py:132-192)

The optimizer state is flattened to plain functions over `ℕ` (the population
size changes across a restart, so sizes are data, not types).  The uniform
random mean drawn at restart is an explicit `draw` argument. -/

/-- The `CMA_ES` attributes read or written by `_restart_ipop`
(cmaes_init.py:132-192). -/
structure IPOPState where
  n : ℕ
  lmbda : ℕ
  max_restarts : ℕ
  lambda_increase_factor : ℝ
  current_restarts : ℕ
  no_improve_counter : ℕ
  iteration : ℕ
  counteval : ℕ
  eigeneval : ℕ
  misfit_holder : ℕ → ℝ
  mutants : ℕ → ℕ → ℝ
  xmean : ℕ → ℝ
  ps : ℕ → ℝ
  pc : ℕ → ℝ
  B : ℕ → ℕ → ℝ
  D : ℕ → ℝ
  C : ℕ → ℕ → ℝ
  invsqrtC : ℕ → ℕ → ℝ
  sigma : ℝ
  mu : ℕ
  weights : List ℝ
  mueff : ℝ
  cs : ℝ
  damps : ℝ
  cc : ℝ
  c1 : ℝ
  cmu : ℝ

/-- `np.eye(n, n)` as a total function. -/
def eyeMat : ℕ → ℕ → ℝ :=
  fun i j => if i = j then 1 else 0

/-- `np.diag(d)` as a total function. -/
def diagMat (d : ℕ → ℝ) : ℕ → ℕ → ℝ :=
  fun i j => if i = j then d i else 0

/-- Matrix transpose as a total function. -/
def transp (A : ℕ → ℕ → ℝ) : ℕ → ℕ → ℝ :=
  fun i j => A j i

/-- `A @ B` for `n × n` operands stored as total functions. -/
noncomputable def matmul (n : ℕ) (A B : ℕ → ℕ → ℝ) : ℕ → ℕ → ℝ :=
  fun i j => ∑ k ∈ Finset.range n, A i k * B k j

/-- `mueff = sum(weights)**2 / sum(weights**2)` (cmaes_init.py:79,179). -/
noncomputable def init_mueff (w : List ℝ) : ℝ :=
  w.sum ^ 2 / (w.map (fun x => x ^ 2)).sum

/-- `cs = (mueff + 2) / (n + mueff + 5)` (cmaes_init.py:82,182). -/
noncomputable def init_cs (n : ℕ) (mueff : ℝ) : ℝ :=
  (mueff + 2) / ((n : ℝ) + mueff + 5)

/-- `damps = 1 + 2*max(0, sqrt((mueff-1)/(n+1)) - 1) + cs`
(cmaes_init.py:83,183). -/
noncomputable def init_damps (n : ℕ) (mueff cs : ℝ) : ℝ :=
  1 + 2 * max 0 (Real.sqrt ((mueff - 1) / ((n : ℝ) + 1)) - 1) + cs

/-- `cc = (4 + mueff/n) / (n + 4 + 2*mueff/n)` (cmaes_init.py:86,186). -/
noncomputable def init_cc (n : ℕ) (mueff : ℝ) : ℝ :=
  (4 + mueff / (n : ℝ)) / ((n : ℝ) + 4 + 2 * mueff / (n : ℝ))

/-- `c1 = acov / ((n + 1.3)**2 + mueff)` with `acov = 2`
(cmaes_init.py:87-88,187-188). -/
noncomputable def init_c1 (n : ℕ) (mueff : ℝ) : ℝ :=
  2 / (((n : ℝ) + 1.3) ^ 2 + mueff)

/-- `cmu = min(1 - c1, acov*(mueff - 2 + 1/mueff)/((n+2)**2 + acov*mueff/2))`
with `acov = 2` (cmaes_init.py:89,189). -/
noncomputable def init_cmu (n : ℕ) (mueff c1 : ℝ) : ℝ :=
  min (1 - c1) (2 * (mueff - 2 + 1 / mueff) / (((n : ℝ) + 2) ^ 2 + 2 * mueff / 2))

/-- Initial-construction `sigma` (cmaes_init.py:69). -/
noncomputable def init_sigma : ℝ := 1.67

/-- Initial-construction `D = np.ones((n,1))` (cmaes_init.py:95). -/
def init_D : ℕ → ℝ := fun _ => 1

/-- Initial-construction `C = B @ diag(D**2) @ B.T` with `B = eye`
(cmaes_init.py:94-96). -/
noncomputable def init_C (n : ℕ) : ℕ → ℕ → ℝ :=
  matmul n (matmul n eyeMat (diagMat (fun i => init_D i ^ 2))) (transp eyeMat)

/-- Initial-construction `invsqrtC = B @ diag(D**-1) @ B.T` with `B = eye`
(cmaes_init.py:97). -/
noncomputable def init_invsqrtC (n : ℕ) : ℕ → ℕ → ℝ :=
  matmul n (matmul n eyeMat (diagMat (fun i => (init_D i)⁻¹))) (transp eyeMat)

/-- `_restart_ipop` (cmaes_init.py:132-192).  `raise StopIteration` becomes
`Except.error` (the state is returned unmodified only in the sense that no
new state is produced); otherwise the population grows by
`int(lmbda * lambda_increase_factor)`, the mean is redrawn (`restart_from_best`
is hardcoded `False`, so `xmean` comes from the uniform `draw`), the
adaptive state is reset and all derived constants are recomputed. -/
noncomputable def restart_ipop (draw : ℕ → ℝ) (s : IPOPState) : Except String IPOPState :=
  if s.max_restarts ≤ s.current_restarts then
    Except.error "IPOP-CMA-ES: Maximum restarts reached."
  else
    let new_lambda := (⌊(s.lmbda : ℝ) * s.lambda_increase_factor⌋).toNat
    let mu := new_lambda / 2
    let w0 := (List.range mu).map
      (fun (i : ℕ) => Real.log ((mu : ℝ) + 1) - Real.log ((i : ℝ) + 1))
    let w := w0.map (fun x => x / w0.sum)
    let mueff := w.sum ^ 2 / (w.map (fun x => x ^ 2)).sum
    let cs := (mueff + 2) / ((s.n : ℝ) + mueff + 5)
    let c1 := 2 / (((s.n : ℝ) + 1.3) ^ 2 + mueff)
    Except.ok { s with
      lmbda := new_lambda
      misfit_holder := fun _ => 0
      iteration := 0
      mutants := fun _ _ => 0
      xmean := draw
      sigma := 1.67
      B := eyeMat
      D := fun _ => 1
      C := matmul s.n (matmul s.n eyeMat (diagMat (fun i => (fun _ => (1 : ℝ)) i ^ 2)))
        (transp eyeMat)
      invsqrtC := matmul s.n
        (matmul s.n eyeMat (diagMat (fun i => ((fun _ => (1 : ℝ)) i)⁻¹))) (transp eyeMat)
      ps := fun _ => 0
      pc := fun _ => 0
      eigeneval := 0
      mu := mu
      weights := w
      mueff := mueff
      cs := cs
      damps := 1 + 2 * max 0 (Real.sqrt ((mueff - 1) / ((s.n : ℝ) + 1)) - 1) + cs
      cc := (4 + mueff / (s.n : ℝ)) / ((s.n : ℝ) + 4 + 2 * mueff / (s.n : ℝ))
      c1 := c1
      cmu := min (1 - c1)
        (2 * (mueff - 2 + 1 / mueff) / (((s.n : ℝ) + 2) ^ 2 + 2 * mueff / 2))
      current_restarts := s.current_restarts + 1
      no_improve_counter := 0 }

end Mtuq

namespace Mtuq

/-! ### Helper lemmas -/

theorem split_sizes_sum (l W : ℕ) (hW : 1 ≤ W) : (split_sizes l W).sum = l := by
  have hmod : l % W ≤ W := le_of_lt (Nat.mod_lt _ hW)
  have : (W - l % W) * (l / W) + (l % W) * (l / W) = W * (l / W) := by
    rw [← Nat.add_mul, Nat.sub_add_cancel hmod]
  simp only [split_sizes, List.sum_append, List.sum_replicate, smul_eq_mul]
  calc l % W * (l / W + 1) + (W - l % W) * (l / W)
      = (W - l % W) * (l / W) + (l % W) * (l / W) + l % W := by ring
    _ = W * (l / W) + l % W := by rw [this]
    _ = l := Nat.div_add_mod l W

theorem chunks_flatten {α : Type*} :
    ∀ (ss : List ℕ) (xs : List α), ss.sum = xs.length → (chunks ss xs).flatten = xs := by
  intro ss
  induction ss with
  | nil =>
    intro xs h
    simp only [List.sum_nil] at h
    simp [chunks, (List.eq_nil_of_length_eq_zero h.symm)]
  | cons s ss ih =>
    intro xs h
    simp only [List.sum_cons] at h
    have hlen : ss.sum = (xs.drop s).length := by
      rw [List.length_drop]; omega
    simp only [chunks, List.flatten_cons, ih _ hlen]
    exact List.take_append_drop s xs

theorem chunks_map {α β : Type*} (f : α → β) :
    ∀ (ss : List ℕ) (xs : List α),
      chunks ss (xs.map f) = (chunks ss xs).map (List.map f) := by
  intro ss
  induction ss with
  | nil => intro xs; simp [chunks]
  | cons s ss ih =>
    intro xs
    simp only [chunks, List.map_cons, List.map_take, ← List.map_drop, ih]

theorem pmod_bounds (x m : ℚ) (hm : 0 < m) : 0 ≤ pmod x m ∧ pmod x m < m := by
  unfold pmod
  have hmx : m * (x / m) = x := by field_simp
  constructor
  · have h := Int.floor_le (x / m)
    have h2 : m * ((⌊x / m⌋ : ℤ) : ℚ) ≤ m * (x / m) :=
      mul_le_mul_of_nonneg_left h (le_of_lt hm)
    rw [hmx] at h2
    linarith
  · have h := Int.lt_floor_add_one (x / m)
    have h2 : m * (x / m) < m * (((⌊x / m⌋ : ℤ) : ℚ) + 1) :=
      mul_lt_mul_of_pos_left h hm
    rw [hmx, mul_add, mul_one] at h2
    linarith

theorem sum_map_div {α : Type*} [DivisionRing α] (ws : List α) (s : α) :
    (ws.map (fun w => w / s)).sum = ws.sum / s := by
  induction ws with
  | nil => simp
  | cons a l ih => simp [ih, add_div]

theorem redraw_scalar_in_bounds (lower upper : ℚ) :
    ∀ (stream : List ℚ) (x y : ℚ) (s' : List ℚ),
      redraw_scalar lower upper stream x = some (y, s') → in_bounds y lower upper = true := by
  intro stream
  induction stream with
  | nil =>
    intro x y s' h
    rw [redraw_scalar] at h
    by_cases hx : in_bounds x lower upper
    · rw [if_pos hx] at h
      cases h
      exact hx
    · rw [if_neg hx] at h
      cases h
  | cons v rest ih =>
    intro x y s' h
    rw [redraw_scalar] at h
    by_cases hx : in_bounds x lower upper
    · rw [if_pos hx] at h
      cases h
      exact hx
    · rw [if_neg hx] at h
      exact ih v y s' h

theorem redraw_scalar_of_in_bounds (lower upper : ℚ) (stream : List ℚ) (x : ℚ)
    (hx : in_bounds x lower upper = true) :
    redraw_scalar lower upper stream x = some (x, stream) := by
  cases stream <;> rw [redraw_scalar, if_pos hx]

theorem redraw_param_until_valid_sound (lower upper : ℚ) :
    ∀ (xs : List ℚ) (stream : List ℚ) (ys : List ℚ),
      redraw_param_until_valid lower upper stream xs = some ys →
        (∀ y ∈ ys, in_bounds y lower upper = true) ∧
          (∀ i : ℕ, in_bounds (xs.getD i 0) lower upper = true →
            ys.getD i 0 = xs.getD i 0) := by
  intro xs
  induction xs with
  | nil =>
    intro stream ys h
    rw [redraw_param_until_valid] at h
    cases h
    constructor
    · intro y hy
      cases hy
    · intro i _
      rfl
  | cons x rest ih =>
    intro stream ys h
    rw [redraw_param_until_valid] at h
    split at h
    · cases h
    · rename_i y stream' hscalar
      split at h
      · cases h
      · rename_i ys' hrest
        cases h
        obtain ⟨hall, hpres⟩ := ih stream' ys' hrest
        constructor
        · intro z hz
          rcases List.mem_cons.mp hz with hz | hz
          · subst hz
            exact redraw_scalar_in_bounds lower upper stream x z stream' hscalar
          · exact hall z hz
        · intro i hi
          match i with
          | 0 =>
            simp only [List.getD_cons_zero] at hi ⊢
            have := redraw_scalar_of_in_bounds lower upper stream x hi
            rw [this] at hscalar
            cases hscalar
            rfl
          | i + 1 =>
            simp only [List.getD_cons_succ] at hi ⊢
            exact hpres i hi

theorem apply_repair_to_param_sound (repairFn : List ℚ → List ℚ) (lower upper : ℚ) :
    ∀ (fuel : ℕ) (xs ys : List ℚ),
      apply_repair_to_param repairFn lower upper fuel xs = some ys →
        array_in_bounds ys lower upper = true := by
  intro fuel
  induction fuel with
  | zero =>
    intro xs ys h
    rw [apply_repair_to_param] at h
    by_cases hx : array_in_bounds xs lower upper
    · rw [if_pos hx] at h
      cases h
      exact hx
    · rw [if_neg hx] at h
      cases h
  | succ f ih =>
    intro xs ys h
    rw [apply_repair_to_param] at h
    by_cases hx : array_in_bounds xs lower upper
    · rw [if_pos hx] at h
      cases h
      exact hx
    · rw [if_neg hx] at h
      exact ih (repairFn xs) ys h

theorem repair_and_redraw_row_sound (p : ParamRepair) (row r : List ℚ)
    (h : repair_and_redraw_row p row = some r) :
    array_in_bounds r 0 10 = true := by
  rw [repair_and_redraw_row] at h
  by_cases hrow : array_in_bounds row 0 10
  · rw [if_pos hrow] at h
    cases h
    exact hrow
  · rw [if_neg hrow] at h
    cases hrep : p.repair with
    | none =>
      rw [hrep] at h
      have := (redraw_param_until_valid_sound 0 10 row p.stream r h).1
      exact List.all_eq_true.mpr this
    | some repairFn =>
      rw [hrep] at h
      exact apply_repair_to_param_sound repairFn 0 10 p.fuel row r h

theorem repair_and_redraw_row_preserves (p : ParamRepair) (row r : List ℚ)
    (hrep : p.repair = none) (h : repair_and_redraw_row p row = some r) :
    ∀ i : ℕ, in_bounds (row.getD i 0) 0 10 = true → r.getD i 0 = row.getD i 0 := by
  rw [repair_and_redraw_row] at h
  by_cases hrow : array_in_bounds row 0 10
  · rw [if_pos hrow] at h
    cases h
    intro i _
    rfl
  · rw [if_neg hrow, hrep] at h
    exact (redraw_param_until_valid_sound 0 10 row p.stream r h).2

theorem getD_map_range (f : ℕ → ℝ) (n i : ℕ) (hi : i < n) :
    ((List.range n).map f).getD i 0 = f i := by
  rw [List.getD_eq_getElem?_getD, List.getElem?_map, List.getElem?_range hi]
  rfl

theorem weights_length (mu : ℕ) : (weights mu).length = mu := by
  simp [weights]

theorem weights_raw_sum_pos (mu : ℕ) (hmu : 1 ≤ mu) :
    0 < ((List.range mu).map
      (fun (i : ℕ) => Real.log ((mu : ℝ) + 1) - Real.log ((i : ℝ) + 1))).sum := by
  apply List.sum_pos
  · intro x hx
    obtain ⟨i, hi, rfl⟩ := List.mem_map.mp hx
    have hi' : i < mu := List.mem_range.mp hi
    have h1 : (0 : ℝ) < (i : ℝ) + 1 := by positivity
    have h2 : (i : ℝ) + 1 < (mu : ℝ) + 1 := by
      have : (i : ℝ) < (mu : ℝ) := by exact_mod_cast hi'
      linarith
    linarith [Real.log_lt_log h1 h2]
  · intro hnil
    rw [List.map_eq_nil_iff, List.range_eq_nil] at hnil
    omega

theorem weights_sum (mu : ℕ) (hmu : 1 ≤ mu) : (weights mu).sum = 1 := by
  unfold weights
  rw [sum_map_div, div_self (weights_raw_sum_pos mu hmu).ne']

theorem argsort_sorted (m : List ℚ) :
    ((argsort m).map (fun i => m.getD i 0)).Sorted (· ≤ ·) := by
  have h : List.Sorted (rankLE m) (argsort m) :=
    List.sorted_insertionSort (rankLE m) (List.range m.length)
  rw [List.Sorted, List.pairwise_map]
  refine h.imp ?_
  intro a b hab
  rcases hab with hab | ⟨hab, _⟩
  · exact le_of_lt hab
  · exact le_of_eq hab

theorem argsort_perm (m : List ℚ) : (argsort m).Perm (List.range m.length) :=
  List.perm_insertionSort (rankLE m) (List.range m.length)

theorem eigen_refresh_hsig {n lam : ℕ}
    (eig : Matrix (Fin n) (Fin n) ℝ → (Fin n → ℝ) × Matrix (Fin n) (Fin n) ℝ)
    (σ : CovState n lam) : (eigen_refresh eig σ).hsig = σ.hsig := by
  unfold eigen_refresh
  split <;> rfl

theorem symmetrize_transpose {n : ℕ} (C : Matrix (Fin n) (Fin n) ℝ) :
    (triu C + (triu1 C).transpose).transpose = triu C + (triu1 C).transpose := by
  ext i j
  simp only [Matrix.transpose_apply, Matrix.add_apply, triu, triu1, Matrix.of_apply]
  rcases lt_trichotomy i j with h | h | h
  · rw [if_neg (not_le.mpr h), if_pos h, if_pos h.le, if_neg (asymm h), zero_add, add_zero]
  · subst h
    simp [lt_irrefl]
  · rw [if_pos h.le, if_neg (asymm h), if_neg (not_le.mpr h), if_pos h, add_zero, zero_add]

/-! ### Claim theorems -/

/-- **C1.** Splitting the generation's columns into `W` contiguous blocks with
`np.array_split` (the scatter of `draw_mutants`) and concatenating the blocks
back in block order (`gather_mutants`) reproduces exactly the original column
list, and mapping a deterministic objective `f` over each block before
concatenating yields the same fitness list as a single-process evaluation of
the full generation. -/
theorem scatter_gather_roundtrip {α β : Type} (W : ℕ) (cols : List α) (f : α → β)
    (hW : 1 ≤ W) (_hWlam : W ≤ cols.length) :
    (array_split W cols).flatten = cols ∧
      ((array_split W cols).map (List.map f)).flatten = cols.map f := by
  have h1 : (array_split W cols).flatten = cols :=
    chunks_flatten _ _ (split_sizes_sum cols.length W hW)
  refine ⟨h1, ?_⟩
  have h2 : array_split W (cols.map f) = (array_split W cols).map (List.map f) := by
    unfold array_split
    rw [List.length_map]
    exact chunks_map f _ cols
  rw [← h2]
  exact chunks_flatten _ _ (by rw [List.length_map]; exact split_sizes_sum _ W hW)

/-- Witness for C1 at `W = 2`, `cols = [1, 2, 3]`, `f = (· + 1)`. -/
theorem scatter_gather_roundtrip_witness :
    (1 ≤ 2 ∧ 2 ≤ [(1 : ℚ), 2, 3].length) ∧
      ((array_split 2 [(1 : ℚ), 2, 3]).flatten = [(1 : ℚ), 2, 3] ∧
       ((array_split 2 [(1 : ℚ), 2, 3]).map (List.map (fun x => x + 1))).flatten
          = [(1 : ℚ), 2, 3].map (fun x => x + 1)) :=
  ⟨⟨by decide, by decide⟩,
    scatter_gather_roundtrip 2 [(1 : ℚ), 2, 3] (fun x => x + 1) (by decide) (by decide)⟩

/-- **C4.** `smallestAngle(target, current)` is congruent to `target - current`
modulo 360 and lies in the half-open interval `(-180, 180]`; consequently
`mean_diff` on a `'wrapping'` parameter returns the shortest signed angular
distance: on the internal values `1/36` and `359/36` (the internal points whose
`[0,360]` images are 1° and 359°) it returns `1/18`, the internal value whose
image is +2°. -/
theorem smallestAngle_mean_diff_spec (t c : ℚ) :
    (∃ k : ℤ, smallestAngle t c = t - c - 360 * k) ∧
      (-180 < smallestAngle t c ∧ smallestAngle t c ≤ 180) ∧
      mean_diff_entry true (1 / 36) (359 / 36) = 1 / 18 ∧
      (linear_transform (1 / 36) 0 360 = 1 ∧ linear_transform (359 / 36) 0 360 = 359 ∧
        linear_transform (1 / 18) 0 360 = 2) := by
  obtain ⟨h0, h360⟩ := pmod_bounds (t - c) 360 (by norm_num)
  refine ⟨?_, ?_, ?_, by norm_num [linear_transform], by norm_num [linear_transform],
    by norm_num [linear_transform]⟩
  · unfold smallestAngle
    by_cases h : 180 < pmod (t - c) 360
    · exact ⟨⌊(t - c) / 360⌋ + 1, by simp only [if_pos h]; push_cast [pmod]; ring⟩
    · exact ⟨⌊(t - c) / 360⌋, by simp only [if_neg h]; push_cast [pmod]; ring⟩
  · unfold smallestAngle
    by_cases h : 180 < pmod (t - c) 360
    · simp only [if_pos h]
      constructor <;> linarith
    · simp only [if_neg h]
      push_neg at h
      constructor <;> linarith
  · have hfloor : ⌊((1 : ℚ) - 359) / 360⌋ = -1 := by
      rw [Int.floor_eq_iff]
      norm_num
    have hlt1 : linear_transform (1 / 36) 0 360 = 1 := by norm_num [linear_transform]
    have hlt359 : linear_transform (359 / 36) 0 360 = 359 := by norm_num [linear_transform]
    have hsa : smallestAngle 1 359 = 2 := by
      unfold smallestAngle pmod
      rw [hfloor]
      norm_num
    rw [mean_diff_entry, if_pos rfl, hlt1, hlt359, hsa]
    norm_num [inverse_linear_transform]

/-- **C8 counterexample.** With `misfit_weights = None` and an empty
`data_list`, the weight-handling segment of `Solve` raises the zero-sum
`ValueError` rather than normalizing equal weights, refuting the claim that
the default `None` case always proceeds to normalization. -/
theorem solve_misfit_weights_counterexample :
    solve_misfit_weights none 0 = Except.error "Sum of weights cannot be zero." := by
  rfl

/-- **C8 (amended).** When `misfit_weights` is provided, the weight-handling
segment of `Solve` errors exactly when its length differs from `data_list`'s
or the weights sum to zero; every successful outcome (provided or default) is
normalized to sum exactly 1; and the default `misfit_weights = None` case
succeeds whenever `data_list` is nonempty (with an empty `data_list` the
default case also hits the zero-sum error, see the counterexample). -/
theorem solve_misfit_weights_spec (ws : List ℚ) (data_len : ℕ) :
    (isError (solve_misfit_weights (some ws) data_len) = true ↔
      ws.length ≠ data_len ∨ ws.sum = 0) ∧
      (∀ (mw : Option (List ℚ)) (out : List ℚ),
        solve_misfit_weights mw data_len = Except.ok out → out.sum = 1) ∧
      (1 ≤ data_len → isError (solve_misfit_weights none data_len) = false) := by
  refine ⟨?_, ?_, ?_⟩
  · unfold solve_misfit_weights
    by_cases h1 : ws.length ≠ data_len
    · simp [h1, isError]
    · by_cases h2 : ws.sum = 0 <;> simp [h1, h2, isError]
  · intro mw out hout
    match mw with
    | some w =>
      simp only [solve_misfit_weights] at hout
      by_cases h1 : w.length ≠ data_len
      · rw [if_pos h1] at hout
        cases hout
      · by_cases h2 : w.sum = 0
        · rw [if_neg h1, if_pos h2] at hout
          cases hout
        · rw [if_neg h1, if_neg h2] at hout
          cases hout
          rw [sum_map_div, div_self h2]
    | none =>
      simp only [solve_misfit_weights] at hout
      by_cases h2 : (List.replicate data_len (1 : ℚ)).sum = 0
      · rw [if_pos h2] at hout
        cases hout
      · rw [if_neg h2] at hout
        cases hout
        rw [sum_map_div, div_self h2]
  · intro hlen
    have hne0 : data_len ≠ 0 := by omega
    simp [solve_misfit_weights, isError, hne0]

/-- Witness for C8 at `misfit_weights = [1, 3]`, `data_len = 2`. -/
theorem solve_misfit_weights_spec_witness :
    solve_misfit_weights (some [(1 : ℚ), 3]) 2 = Except.ok [1 / 4, 3 / 4] ∧
      ([(1 : ℚ) / 4, 3 / 4].sum = 1) ∧
      (1 ≤ 2 ∧ isError (solve_misfit_weights (none : Option (List ℚ)) 2) = false) :=
  ⟨by norm_num [solve_misfit_weights],
    (solve_misfit_weights_spec [(1 : ℚ), 3] 2).2.1 (some [(1 : ℚ), 3]) [1 / 4, 3 / 4]
      (by norm_num [solve_misfit_weights]),
    ⟨by decide, (solve_misfit_weights_spec [(1 : ℚ), 3] 2).2.2 (by decide)⟩⟩

/-- **C9.** `_generate_sources` passes the first 6 rows directly for mode
`'mt'` and the first 3 for `'force'`; for `'mt_dev'` the 5 sliced rows are
extended to 6 with one zero row inserted at index 2; for `'mt_dc'` the 4
sliced rows are extended to 6 with zero rows at indices 1 and 2, the original
rows keeping their relative order; any other mode raises `ValueError`. -/
theorem generate_sources_spec (lam : ℕ) (r0 r1 r2 r3 r4 r5 : List ℚ)
    (rest : List (List ℚ)) (mode : String)
    (hmode : mode ≠ "mt" ∧ mode ≠ "mt_dev" ∧ mode ≠ "mt_dc" ∧ mode ≠ "force") :
    generate_sources_rows "mt" lam ([r0, r1, r2, r3, r4, r5] ++ rest) =
        Except.ok [r0, r1, r2, r3, r4, r5] ∧
      generate_sources_rows "force" lam ([r0, r1, r2] ++ rest) =
        Except.ok [r0, r1, r2] ∧
      generate_sources_rows "mt_dev" lam ([r0, r1, r2, r3, r4] ++ rest) =
        Except.ok [r0, r1, List.replicate lam 0, r2, r3, r4] ∧
      generate_sources_rows "mt_dc" lam ([r0, r1, r2, r3] ++ rest) =
        Except.ok [r0, List.replicate lam 0, List.replicate lam 0, r1, r2, r3] ∧
      generate_sources_rows mode lam ([r0, r1, r2, r3, r4, r5] ++ rest) =
        Except.error ("Invalid mode: " ++ mode) := by
  obtain ⟨h1, h2, h3, h4⟩ := hmode
  refine ⟨rfl, rfl, rfl, rfl, ?_⟩
  unfold generate_sources_rows mode_to_indices
  simp [h1, h2, h3, h4]

/-- Witness for C9 at concrete rows and the invalid mode `"mt_full"`. -/
theorem generate_sources_spec_witness :
    generate_sources_rows "mt_dev" 1 ([[(1 : ℚ)], [2], [3], [4], [5]] ++ []) =
        Except.ok [[(1 : ℚ)], [2], List.replicate 1 0, [3], [4], [5]] ∧
      generate_sources_rows "mt_full" 1
          ([[(1 : ℚ)], [2], [3], [4], [5], [6]] ++ []) =
        Except.error ("Invalid mode: " ++ "mt_full") :=
  ⟨(generate_sources_spec 1 [(1 : ℚ)] [2] [3] [4] [5] [6] [] "mt_full"
      (by refine ⟨?_, ?_, ?_, ?_⟩ <;> decide)).2.2.1,
    (generate_sources_spec 1 [(1 : ℚ)] [2] [3] [4] [5] [6] [] "mt_full"
      (by refine ⟨?_, ?_, ?_, ?_⟩ <;> decide)).2.2.2.2⟩

/-- **C3.** Whenever `_repair_and_redraw_mutants` returns (i.e. every
redraw stream suffices and every repair loop terminates within its fuel),
every entry of the resulting `n × lambda` mutant array lies within the
hardcoded sampling-domain bounds `[0, 10]` — both for `repair = None` rows
(per-scalar redraw) and for named-repair rows (repeated whole-row repair);
moreover on a `repair = None` row each scalar that was already in bounds is
left untouched, so only the offending scalars are redrawn. -/
theorem repair_and_redraw_mutants_in_bounds :
    ∀ (ps : List ParamRepair) (rows rows' : List (List ℚ)),
      repair_and_redraw_mutants ps rows = some rows' →
        (∀ row ∈ rows', ∀ x ∈ row, 0 ≤ x ∧ x ≤ 10) ∧
          (∀ k : ℕ, k < ps.length → (ps.getD k default).repair = none →
            ∀ i : ℕ, in_bounds ((rows.getD k []).getD i 0) 0 10 = true →
              (rows'.getD k []).getD i 0 = (rows.getD k []).getD i 0) := by
  intro ps
  induction ps with
  | nil =>
    intro rows rows' h
    rw [repair_and_redraw_mutants] at h
    cases h
    constructor
    · intro row hrow
      cases hrow
    · intro k hk
      cases hk
  | cons p ps ih =>
    intro rows rows' h
    cases rows with
    | nil =>
      rw [repair_and_redraw_mutants] at h
      cases h
      constructor
      · intro row hrow
        cases hrow
      · intro k _ _ i _
        cases k <;> rfl
    | cons row rest =>
      rw [repair_and_redraw_mutants] at h
      split at h
      · rename_i r rs hrow hrest
        cases h
        obtain ⟨hall, hpres⟩ := ih rest rs hrest
        constructor
        · intro row' hrow'
          rcases List.mem_cons.mp hrow' with hrow' | hrow'
          · subst hrow'
            intro x hx
            have hb := repair_and_redraw_row_sound p row row' hrow
            have := List.all_eq_true.mp hb x hx
            simpa [in_bounds] using this
          · exact hall row' hrow'
        · intro k hk hrep i hi
          match k with
          | 0 =>
            simp only [List.getD_cons_zero] at hrep hi ⊢
            exact repair_and_redraw_row_preserves p row r hrep hrow i hi
          | k + 1 =>
            simp only [List.getD_cons_succ] at hrep hi ⊢
            exact hpres k (by simpa using hk) hrep i hi
      · cases h

/-- Witness for C3: two parameters, the first with the redraw policy (one
draw needed), the second with a named repair method needing one application. -/
theorem repair_and_redraw_mutants_in_bounds_witness :
    repair_and_redraw_mutants
        [⟨none, [5], 0⟩, ⟨some (fun _ => [6, 7]), [], 3⟩]
        [[12, 3], [15, 7]] = some [[5, 3], [6, 7]] ∧
      (0 ≤ (5 : ℚ) ∧ (5 : ℚ) ≤ 10) :=
  ⟨by decide,
    (repair_and_redraw_mutants_in_bounds
        [⟨none, [5], 0⟩, ⟨some (fun _ => [6, 7]), [], 3⟩]
        [[12, 3], [15, 7]] [[5, 3], [6, 7]] (by decide)).1
      [5, 3] (by decide) 5 (by decide)⟩

/-- **C2.** After `fitness_sort(misfit)` followed by `update_mean` on the
root process: the misfit values of the permuted columns are ascending and the
permutation is a genuine reordering of all `lambda` candidates; the weights
have length `mu = floor(lambda/2)`, are proportional to
`log(mu + 1) - log(i)`, and sum exactly to 1; `xold` holds a copy of the
previous mean; and every non-`'wrapping'` row of the new mean is the weighted
average of the `mu` lowest-misfit mutant columns. -/
theorem fitness_sort_update_mean_spec (lam : ℕ) (m : List ℚ) (cols : List (List ℚ))
    (wrap : ℕ → Bool) (circ : ℕ → ℝ) (xm : List ℝ)
    (hlam : 2 ≤ lam) (hm : m.length = lam) (_hcols : cols.length = lam) :
    ((argsort m).map (fun i => m.getD i 0)).Sorted (· ≤ ·) ∧
      (argsort m).Perm (List.range lam) ∧
      (weights (lam / 2)).length = lam / 2 ∧
      (weights (lam / 2)).sum = 1 ∧
      (update_mean wrap circ xm (fitness_sort cols m) (weights (lam / 2))).xold = xm ∧
      (∀ i, i < xm.length → wrap i = false →
        (update_mean wrap circ xm (fitness_sort cols m)
            (weights (lam / 2))).xmean.getD i 0 =
          (List.zipWith (fun (k : ℕ) (wj : ℝ) => ((cols.getD k []).getD i 0 : ℝ) * wj)
            ((argsort m).take (lam / 2)) (weights (lam / 2))).sum) := by
  have hmu : 1 ≤ lam / 2 := by omega
  refine ⟨argsort_sorted m, hm ▸ argsort_perm m, weights_length _, weights_sum _ hmu,
    rfl, ?_⟩
  intro i hi hwrap
  have hmean : (update_mean wrap circ xm (fitness_sort cols m)
      (weights (lam / 2))).xmean.getD i 0 =
      update_mean_entry (fitness_sort cols m) (weights (lam / 2)) i := by
    rw [update_mean]
    simp only
    rw [getD_map_range _ _ _ hi, if_neg (by simp [hwrap])]
  rw [hmean, update_mean_entry, weights_length, fitness_sort, ← List.map_take,
    List.zipWith_map_left]

/-- Witness for C2 at `lambda = 4`, misfit `[3, 1, 2, 0]`, four 1-row
columns. -/
theorem fitness_sort_update_mean_spec_witness :
    (2 ≤ 4 ∧ [(3 : ℚ), 1, 2, 0].length = 4 ∧
        [[(10 : ℚ)], [20], [30], [40]].length = 4) ∧
      (weights (4 / 2)).sum = 1 :=
  ⟨⟨by decide, by decide, by decide⟩,
    (fitness_sort_update_mean_spec 4 [(3 : ℚ), 1, 2, 0] [[(10 : ℚ)], [20], [30], [40]]
        (fun _ => false) (fun _ => (0 : ℝ)) [(0 : ℝ)]
        (by decide) (by decide) (by decide)).2.2.2.1⟩

/-- **C5.** In `update_covariance`, `hsig` is 1 exactly when the normalized
step-size-path length `norm(ps)/sqrt(1-(1-cs)^(2*(counteval//lambda+1)))/chin`
is below the fixed threshold `1.4 + 2/(n+1)` and 0 otherwise;
`dhsig = (1-hsig)*cc*(2-cc)`; and `C` is multiplied by the discount factor
`1 + c1*dhsig - c1 - cmu*sum(weights)` before the rank-one term `c1*pc*pc^T`
(with the freshly updated `pc`) and the rank-mu term
`cmu*artmp*diag(weights)*artmp^T` are added. -/
theorem update_covariance_spec {n lam : ℕ}
    (eig : Matrix (Fin n) (Fin n) ℝ → (Fin n → ℝ) × Matrix (Fin n) (Fin n) ℝ)
    (s : CovState n lam) :
    (update_covariance eig s).hsig =
        (if hsig_condition s < hsig_threshold n then (1 : ℝ) else 0) ∧
      (update_covariance_main s).dhsig =
        (1 - (update_covariance_main s).hsig) * s.cc * (2 - s.cc) ∧
      (update_covariance_main s).pc = pc_update s (update_covariance_main s).hsig ∧
      (update_covariance_main s).C =
        (1 + s.c1 * (update_covariance_main s).dhsig - s.c1 -
            s.cmu * (∑ j, s.weights j)) • s.C
          + s.c1 • Matrix.of (fun i k =>
              (update_covariance_main s).pc i * (update_covariance_main s).pc k)
          + s.cmu • Matrix.of (fun i k =>
              ∑ j, artmp_of s i j * s.weights j * artmp_of s k j) := by
  refine ⟨?_, rfl, rfl, rfl⟩
  show (eigen_refresh eig (update_covariance_main s)).hsig = _
  rw [eigen_refresh_hsig]
  rfl

/-- **C6.** `update_covariance` recomputes the cached eigendecomposition only
when `counteval - eigeneval > lambda/(c1+cmu)/n/10`: below the threshold,
`B`, `D`, `invsqrtC` and `eigeneval` are exactly the values from before the
update; above it, `eigeneval` becomes `counteval`, `C` is replaced by
`np.triu(C) + np.triu(C,1).T` — which is proved exactly symmetric — and `D`
(elementwise square root of the eigenvalues), `B` and `invsqrtC` are rebuilt
from the eigendecomposition of the symmetrized `C`. -/
theorem update_covariance_refresh_spec {n lam : ℕ}
    (eig : Matrix (Fin n) (Fin n) ℝ → (Fin n → ℝ) × Matrix (Fin n) (Fin n) ℝ)
    (s : CovState n lam) :
    (¬ refresh_condition (update_covariance_main s) →
      (update_covariance eig s).B = s.B ∧
        (update_covariance eig s).D = s.D ∧
        (update_covariance eig s).invsqrtC = s.invsqrtC ∧
        (update_covariance eig s).eigeneval = s.eigeneval) ∧
      (refresh_condition (update_covariance_main s) →
        (update_covariance eig s).eigeneval = s.counteval ∧
          (update_covariance eig s).C =
            triu (update_covariance_main s).C +
              (triu1 (update_covariance_main s).C).transpose ∧
          ((update_covariance eig s).C).transpose = (update_covariance eig s).C ∧
          (update_covariance eig s).D =
            (fun i => Real.sqrt ((eig ((update_covariance eig s).C)).1 i)) ∧
          (update_covariance eig s).B = (eig ((update_covariance eig s).C)).2 ∧
          (update_covariance eig s).invsqrtC =
            (update_covariance eig s).B *
              Matrix.diagonal (fun i => (((update_covariance eig s).D) i)⁻¹) *
              ((update_covariance eig s).B).transpose) := by
  constructor
  · intro h
    have hre : update_covariance eig s =
        { update_covariance_main s with
          iteration := (update_covariance_main s).counteval / lam } := by
      unfold update_covariance eigen_refresh
      rw [if_neg h]
    rw [hre]
    exact ⟨rfl, rfl, rfl, rfl⟩
  · intro h
    have hre : update_covariance eig s =
        { update_covariance_main s with
          eigeneval := (update_covariance_main s).counteval
          C := triu (update_covariance_main s).C +
            (triu1 (update_covariance_main s).C).transpose
          D := fun i => Real.sqrt ((eig (triu (update_covariance_main s).C +
            (triu1 (update_covariance_main s).C).transpose)).1 i)
          B := (eig (triu (update_covariance_main s).C +
            (triu1 (update_covariance_main s).C).transpose)).2
          invsqrtC := (eig (triu (update_covariance_main s).C +
              (triu1 (update_covariance_main s).C).transpose)).2 *
            Matrix.diagonal (fun i =>
              (Real.sqrt ((eig (triu (update_covariance_main s).C +
                (triu1 (update_covariance_main s).C).transpose)).1 i))⁻¹) *
            ((eig (triu (update_covariance_main s).C +
              (triu1 (update_covariance_main s).C).transpose)).2).transpose
          iteration := (update_covariance_main s).counteval / lam } := by
      unfold update_covariance eigen_refresh
      rw [if_pos h]
    rw [hre]
    exact ⟨rfl, rfl, symmetrize_transpose _, rfl, rfl, rfl⟩

/-- Witness for C6 (no-refresh branch) at a 1-dimensional state with
`counteval = eigeneval = 0`. -/
theorem update_covariance_refresh_spec_witness :
    (update_covariance (fun _ => (fun _ => (0 : ℝ), (1 : Matrix (Fin 1) (Fin 1) ℝ)))
        (⟨fun _ => 0, fun _ => 0, 1, 1, fun _ => 1, 1, fun _ => 0, fun _ => 0,
          fun _ _ => 0, fun _ => false, fun _ => 1, 1, 1, 1, 1, 1, 1, 1, 1, 0, 0,
          0, 0, 0⟩ : CovState 1 2)).B = 1 :=
  ((update_covariance_refresh_spec
      (fun _ => (fun _ => (0 : ℝ), (1 : Matrix (Fin 1) (Fin 1) ℝ)))
      (⟨fun _ => 0, fun _ => 0, 1, 1, fun _ => 1, 1, fun _ => 0, fun _ => 0,
        fun _ _ => 0, fun _ => false, fun _ => 1, 1, 1, 1, 1, 1, 1, 1, 1, 0, 0,
        0, 0, 0⟩ : CovState 1 2)).1
    (by
      unfold refresh_condition
      simp only [update_covariance_main]
      norm_num)).1

/-- **C10.** Because the recombination weights sum to 1, the covariance
discount applied in cmaes.py:757, `(1 + c1*(1-hsig)*cc*(2-cc) - c1 -
cmu*sum(weights)) * C`, coincides exactly — for the same `hsig`, `c1`, `cmu`,
`cc`, `weights` and `C` — with the `C`-discount contribution
`(1-c1-cmu)*C + c1*(1-hsig)*cc*(2-cc)*C` of the legacy form in
cmaes_parallel.py:275; moreover the former is precisely the discount summand
of the embedded `update_covariance_main`. -/
theorem discount_equivalence {n lam : ℕ} (s : CovState n lam)
    (c1 cmu cc hsig sumw : ℝ) (C : Matrix (Fin n) (Fin n) ℝ)
    (hw : sumw = 1) :
    discount_current c1 cmu cc hsig sumw C = discount_legacy c1 cmu cc hsig C ∧
      (1 + s.c1 * (update_covariance_main s).dhsig - s.c1 -
          s.cmu * (∑ j, s.weights j)) • s.C =
        discount_current s.c1 s.cmu s.cc (update_covariance_main s).hsig
          (∑ j, s.weights j) s.C := by
  constructor
  · subst hw
    rw [discount_current, discount_legacy, discount_factor, ← add_smul]
    congr 1
    ring
  · rfl

/-- Witness for C10 at `c1 = 1/2`, `cmu = 1/4`, `cc = 1/3`, `hsig = 0`,
`sumw = 1`, `C = 1` in dimension 1. -/
theorem discount_equivalence_witness :
    discount_current (1 / 2) (1 / 4) (1 / 3) 0 1 (1 : Matrix (Fin 1) (Fin 1) ℝ) =
      discount_legacy (1 / 2) (1 / 4) (1 / 3) 0 (1 : Matrix (Fin 1) (Fin 1) ℝ) :=
  (discount_equivalence
      (⟨fun _ => 0, fun _ => 0, 1, 1, fun _ => 1, 1, fun _ => 0, fun _ => 0,
        fun _ _ => 0, fun _ => false, fun _ => 1, 1, 1, 1, 1, 1, 1, 1, 1, 0, 0,
        0, 0, 0⟩ : CovState 1 2)
      (1 / 2) (1 / 4) (1 / 3) 0 1 (1 : Matrix (Fin 1) (Fin 1) ℝ) rfl).1

/-- **C7.** `_restart_ipop` called with `current_restarts >= max_restarts`
raises the terminal restarts-exhausted `StopIteration` (producing no new
state); otherwise it returns a state with `lambda = int(lambda *
lambda_increase_factor)`, `mu`, `weights`, `mueff`, `cs`, `damps`, `cc`,
`c1`, `cmu` recomputed from the new lambda by the construction-time
closed-form formulas, `sigma`, `C`, `B`, `D`, `invsqrtC`, `ps`, `pc` (and
`eigeneval`) reset to their initial-construction values, the mean reset to
the fresh uniform draw, and `current_restarts` incremented by exactly 1 — so
a successful restart never pushes `current_restarts` past `max_restarts`. -/
theorem restart_ipop_spec (draw : ℕ → ℝ) (s : IPOPState) :
    (s.max_restarts ≤ s.current_restarts →
      restart_ipop draw s = Except.error "IPOP-CMA-ES: Maximum restarts reached.") ∧
      (s.current_restarts < s.max_restarts →
        ∃ s', restart_ipop draw s = Except.ok s' ∧
          s'.lmbda = (⌊(s.lmbda : ℝ) * s.lambda_increase_factor⌋).toNat ∧
          s'.mu = s'.lmbda / 2 ∧
          s'.weights = weights s'.mu ∧
          s'.mueff = init_mueff s'.weights ∧
          s'.cs = init_cs s.n s'.mueff ∧
          s'.damps = init_damps s.n s'.mueff s'.cs ∧
          s'.cc = init_cc s.n s'.mueff ∧
          s'.c1 = init_c1 s.n s'.mueff ∧
          s'.cmu = init_cmu s.n s'.mueff s'.c1 ∧
          s'.sigma = init_sigma ∧
          s'.xmean = draw ∧
          s'.B = eyeMat ∧
          s'.D = init_D ∧
          s'.C = init_C s.n ∧
          s'.invsqrtC = init_invsqrtC s.n ∧
          s'.ps = (fun _ => 0) ∧
          s'.pc = (fun _ => 0) ∧
          s'.eigeneval = 0 ∧
          s'.current_restarts = s.current_restarts + 1) ∧
      (∀ s', restart_ipop draw s = Except.ok s' →
        s'.current_restarts ≤ s.max_restarts) := by
  refine ⟨?_, ?_, ?_⟩
  · intro h
    rw [restart_ipop, if_pos h]
  · intro h
    rw [restart_ipop, if_neg (by omega)]
    exact ⟨_, rfl, rfl, rfl, rfl, rfl, rfl, rfl, rfl, rfl, rfl, rfl, rfl, rfl, rfl,
      rfl, rfl, rfl, rfl, rfl, rfl⟩
  · intro s' hok
    rw [restart_ipop] at hok
    by_cases h : s.max_restarts ≤ s.current_restarts
    · rw [if_pos h] at hok
      cases hok
    · rw [if_neg h] at hok
      cases hok
      show s.current_restarts + 1 ≤ s.max_restarts
      omega

/-- Witness for C7 (exhausted branch) at a state with
`current_restarts = max_restarts = 2`. -/
theorem restart_ipop_spec_witness :
    (⟨1, 4, 2, 2, 2, 0, 0, 0, 0, fun _ => 0, fun _ _ => 0, fun _ => 0, fun _ => 0,
        fun _ => 0, fun _ _ => 0, fun _ => 1, fun _ _ => 0, fun _ _ => 0, 1, 2, [],
        1, 1, 1, 1, 1, 1⟩ : IPOPState).max_restarts ≤
      (⟨1, 4, 2, 2, 2, 0, 0, 0, 0, fun _ => 0, fun _ _ => 0, fun _ => 0, fun _ => 0,
        fun _ => 0, fun _ _ => 0, fun _ => 1, fun _ _ => 0, fun _ _ => 0, 1, 2, [],
        1, 1, 1, 1, 1, 1⟩ : IPOPState).current_restarts ∧
      restart_ipop (fun _ => 0)
          (⟨1, 4, 2, 2, 2, 0, 0, 0, 0, fun _ => 0, fun _ _ => 0, fun _ => 0,
            fun _ => 0, fun _ => 0, fun _ _ => 0, fun _ => 1, fun _ _ => 0,
            fun _ _ => 0, 1, 2, [], 1, 1, 1, 1, 1, 1⟩ : IPOPState) =
        Except.error "IPOP-CMA-ES: Maximum restarts reached." :=
  ⟨by decide,
    (restart_ipop_spec (fun _ => 0)
        (⟨1, 4, 2, 2, 2, 0, 0, 0, 0, fun _ => 0, fun _ _ => 0, fun _ => 0,
          fun _ => 0, fun _ => 0, fun _ _ => 0, fun _ => 1, fun _ _ => 0,
          fun _ _ => 0, 1, 2, [], 1, 1, 1, 1, 1, 1⟩ : IPOPState)).1 (by decide)⟩

end Mtuq
